import Mathlib

/-!
Verification development for the SAR image preprocessing repository
(`filter_apply.c`, sequential mode, and `filter_apply_parallel.c`, parallel
mode).  Image buffers are embedded as functions `ℤ → ℕ` over the linear
byte index of the C buffer; the loops writing into the scratch buffer
`temp` are embedded as folds of single-index writes; `double` arithmetic
is embedded as exact real arithmetic; `unsigned char` samples are natural
numbers (a hypothesis `≤ 255` stands for the byte range where it matters);
the contents of the freshly `malloc`ed scratch buffer are an arbitrary
function `junk` (uninitialized memory).
-/

/-! ## Kernel builder

Both C files build the same 5×5 Gaussian kernel inside `applyGaussianFilter`
(`kernel[i][j] = exp(-(x*x + y*y) / (2*sigma*sigma))` with
`x = i - kernel_size/2`, `y = j - kernel_size/2`, integer division, then
normalization by the total sum).  The construction loop is generic in
`kernel_size` and `sigma`, so it is embedded with those as parameters. -/

noncomputable def kernelEntry (K : ℕ) (σ : ℝ) (i j : ℕ) : ℝ :=
  Real.exp ((-(((i : ℝ) - (K / 2 : ℕ)) * ((i : ℝ) - (K / 2 : ℕ)) +
      ((j : ℝ) - (K / 2 : ℕ)) * ((j : ℝ) - (K / 2 : ℕ)))) / (2 * σ * σ))

noncomputable def kernelSum (K : ℕ) (σ : ℝ) : ℝ :=
  ∑ i ∈ Finset.range K, ∑ j ∈ Finset.range K, kernelEntry K σ i j

/-- The normalized kernel entry, `kernel[i][j] /= sum`. -/
noncomputable def kernel (K : ℕ) (σ : ℝ) (i j : ℕ) : ℝ :=
  kernelEntry K σ i j / kernelSum K σ

theorem kernelEntry_pos (K : ℕ) (σ : ℝ) (i j : ℕ) : 0 < kernelEntry K σ i j :=
  Real.exp_pos _

theorem kernelSum_pos (K : ℕ) (hK : 0 < K) (σ : ℝ) : 0 < kernelSum K σ := by
  have hne : (Finset.range K).Nonempty := Finset.nonempty_range_iff.mpr hK.ne'
  exact Finset.sum_pos
    (fun i _ => Finset.sum_pos (fun j _ => kernelEntry_pos K σ i j) hne) hne

theorem kernel_sum_eq_one (K : ℕ) (hK : 0 < K) (σ : ℝ) :
    ∑ i ∈ Finset.range K, ∑ j ∈ Finset.range K, kernel K σ i j = 1 := by
  unfold kernel
  simp only [← Finset.sum_div]
  exact div_self (kernelSum_pos K hK σ).ne'

/-- C5: for every valid kernel parameterization (odd K ≥ 3, σ > 0) the
normalized Gaussian kernel has all entries non-negative and its K·K entries
sum to 1 within 1e-9 absolute tolerance (in the real-arithmetic model the
sum is exactly 1). -/
theorem claim5_kernel_normalized (K : ℕ) (σ : ℝ) (hK : 3 ≤ K) (hodd : Odd K)
    (hσ : 0 < σ) :
    (∀ i ∈ Finset.range K, ∀ j ∈ Finset.range K, 0 ≤ kernel K σ i j) ∧
    |(∑ i ∈ Finset.range K, ∑ j ∈ Finset.range K, kernel K σ i j) - 1|
      ≤ 1 / 10 ^ 9 := by
  have hK0 : 0 < K := by omega
  constructor
  · intro i _ j _
    exact le_of_lt (div_pos (kernelEntry_pos K σ i j) (kernelSum_pos K hK0 σ))
  · rw [kernel_sum_eq_one K hK0 σ]
    norm_num

/-- Witness for C5 at the configuration the code uses: K = 5, σ = 1.5. -/
theorem claim5_kernel_normalized_witness :
    |(∑ i ∈ Finset.range 5, ∑ j ∈ Finset.range 5, kernel 5 (3 / 2) i j) - 1|
      ≤ 1 / 10 ^ 9 :=
  (claim5_kernel_normalized 5 (3 / 2) (by norm_num) ⟨2, by norm_num⟩
    (by norm_num)).2

/-! ## Buffer model

An image buffer is a total function `ℤ → ℕ` from the linear byte index
(`i * width + j` in the C code, an `int` expression that can be negative
when the loop bounds misbehave) to the sample value.  A C loop writing
`temp[idx] = v(idx)` for a sequence of indices is embedded as a fold of
single-index writes; the value written at an index is a function of that
index and of the read-only input, so the fold only depends on which
indices are written (this is also what makes the OpenMP row partition
deterministic). -/

def writeAll (g : ℤ → ℕ) (idxs : List ℤ) (buf : ℤ → ℕ) : ℤ → ℕ :=
  idxs.foldl (fun b e x => if x = e then g e else b x) buf

theorem writeAll_eq (g : ℤ → ℕ) (idxs : List ℤ) (buf : ℤ → ℕ) (x : ℤ) :
    writeAll g idxs buf x = if x ∈ idxs then g x else buf x := by
  induction idxs generalizing buf with
  | nil => simp [writeAll]
  | cons e t ih =>
    show writeAll g t (fun y => if y = e then g e else buf y) x = _
    rw [ih]
    by_cases hx : x ∈ t
    · simp [hx, List.mem_cons]
    · by_cases hxe : x = e
      · subst hxe; simp [hx, List.mem_cons]
      · simp [hx, hxe, List.mem_cons]

/-- Linear indices written by the interior sweep
(`for i = offset .. height-offset-1, for j = offset .. width-offset-1`,
writing `temp[i*width + j]`).  The row loop runs `height - 2*offset`
times and the column loop `width - 2*offset` times (zero times when the
dimension is degenerate, exactly as the C comparisons `i < height - offset`
behave for int arithmetic combined with `i` starting at `offset`). -/
def interiorIdxs (w h off : ℕ) : List ℤ :=
  (List.range (h - 2 * off)).flatMap fun i =>
    (List.range (w - 2 * off)).flatMap fun j =>
      [((i : ℤ) + off) * w + ((j : ℤ) + off)]

/-- Linear indices written (and read from `image_data`) by the first
border-copy loop of the parallel code: for `i < offset`, `j < width`,
the rows `i` and `height - i - 1` (the latter computed in int arithmetic,
so it can be negative when `height ≤ offset`). -/
def borderTopBot (w h off : ℕ) : List ℤ :=
  (List.range off).flatMap fun i =>
    (List.range w).flatMap fun j =>
      [(i : ℤ) * w + j, ((h : ℤ) - i - 1) * w + j]

/-- Linear indices written (and read) by the second border-copy loop of the
parallel code: for `offset ≤ i < height - offset`, `j < offset`, the
columns `j` and `width - j - 1` of row `i`. -/
def borderLR (w h off : ℕ) : List ℤ :=
  (List.range (h - 2 * off)).flatMap fun i =>
    (List.range off).flatMap fun j =>
      [((i : ℤ) + off) * w + j, ((i : ℤ) + off) * w + ((w : ℤ) - j - 1)]

/-- All indices touched by the two border-copy loops of the parallel code,
in program order. -/
def borderIdxs (w h off : ℕ) : List ℤ :=
  borderTopBot w h off ++ borderLR w h off

/-! ## The two filter kernels' per-pixel values -/

/-- Clamp-and-cast of the C code:
`(unsigned char)(v < 0 ? 0 : (v > 255 ? 255 : v))`; the cast of a double
in [0,255] to `unsigned char` truncates toward zero. -/
noncomputable def clampByte (v : ℝ) : ℕ :=
  if v < 0 then 0 else if 255 < v then 255 else ⌊v⌋₊

/-- The Gaussian weighted sum at interior pixel `(i,j) = (x/w, x%w)`:
`pixel_value += image_data[(i+k)*width + (j+l)] * kernel[k+offset][l+offset]`
for `k, l ∈ [-offset, offset]`, with the hardcoded `kernel_size = 5`,
`sigma = 1.5` of both C files. -/
noncomputable def gaussPixel (w : ℕ) (img : ℤ → ℕ) (x : ℤ) : ℝ :=
  ∑ k ∈ Finset.range 5, ∑ l ∈ Finset.range 5,
    (img ((x / (w : ℤ) + ((k : ℤ) - 2)) * w + (x % (w : ℤ) + ((l : ℤ) - 2))) : ℝ)
      * kernel 5 (3 / 2) k l

noncomputable def gaussVal (w : ℕ) (img : ℤ → ℕ) (x : ℤ) : ℕ :=
  clampByte (gaussPixel w img x)

/-- The local-mean ("Wiener") value at interior pixel `(i,j) = (x/w, x%w)`:
the int sum of the 5×5 neighborhood divided by `kernel_area = 25` with
truncating integer division. -/
def wienerVal (w : ℕ) (img : ℤ → ℕ) (x : ℤ) : ℕ :=
  (∑ k ∈ Finset.range 5, ∑ l ∈ Finset.range 5,
    img ((x / (w : ℤ) + ((k : ℤ) - 2)) * w + (x % (w : ℤ) + ((l : ℤ) - 2)))) / 25

/-! ## The four filter functions

`alloc` is the outcome of the scratch-buffer `malloc`: on failure the C
functions return before touching `image_data`.  On success the function
ends with `memcpy(image_data, temp, width*height)`, so inside the first
`width*height` bytes the result is the final `temp` contents and outside
them `image_data` is unchanged.  `junk` is the uninitialized content of
`temp` right after `malloc`. -/

namespace Seq

/-- `applyGaussianFilter` of `filter_apply.c`: interior sweep only — the
border bytes of `temp` are never written and keep their uninitialized
contents, which the final `memcpy` copies into the image. -/
noncomputable def applyGaussianFilter (alloc : Bool) (w h : ℕ)
    (junk img : ℤ → ℕ) : ℤ → ℕ :=
  if alloc then
    fun x => if 0 ≤ x ∧ x < ((w * h : ℕ) : ℤ) then
      writeAll (gaussVal w img) (interiorIdxs w h 2) junk x
    else img x
  else img

/-- `applyWienerFilter` of `filter_apply.c`: same structure, integer mean. -/
def applyWienerFilter (alloc : Bool) (w h : ℕ) (junk img : ℤ → ℕ) : ℤ → ℕ :=
  if alloc then
    fun x => if 0 ≤ x ∧ x < ((w * h : ℕ) : ℤ) then
      writeAll (wienerVal w img) (interiorIdxs w h 2) junk x
    else img x
  else img

/-- The per-image pipeline of `processDataset` in `filter_apply.c`:
Gaussian then Wiener, each stage with its own scratch buffer. -/
noncomputable def pipeline (w h : ℕ) (junkG junkW : ℤ → ℕ)
    (img : ℤ → ℕ) : ℤ → ℕ :=
  applyWienerFilter true w h junkW (applyGaussianFilter true w h junkG img)

end Seq

namespace Par

/-- `applyGaussianFilter` of `filter_apply_parallel.c`: the interior sweep
(OpenMP-distributed over rows, each index written exactly once with a value
depending only on the read-only input, hence schedule-independent) followed
by the two border-copy loops. -/
noncomputable def applyGaussianFilter (alloc : Bool) (w h : ℕ)
    (junk img : ℤ → ℕ) : ℤ → ℕ :=
  if alloc then
    fun x => if 0 ≤ x ∧ x < ((w * h : ℕ) : ℤ) then
      writeAll img (borderIdxs w h 2)
        (writeAll (gaussVal w img) (interiorIdxs w h 2) junk) x
    else img x
  else img

/-- `applyWienerFilter` of `filter_apply_parallel.c`. -/
def applyWienerFilter (alloc : Bool) (w h : ℕ) (junk img : ℤ → ℕ) : ℤ → ℕ :=
  if alloc then
    fun x => if 0 ≤ x ∧ x < ((w * h : ℕ) : ℤ) then
      writeAll img (borderIdxs w h 2)
        (writeAll (wienerVal w img) (interiorIdxs w h 2) junk) x
    else img x
  else img

/-- The per-image pipeline of `processDataset` in `filter_apply_parallel.c`. -/
noncomputable def pipeline (w h : ℕ) (junkG junkW : ℤ → ℕ)
    (img : ℤ → ℕ) : ℤ → ℕ :=
  applyWienerFilter true w h junkW (applyGaussianFilter true w h junkG img)

end Par

/-! ## Unfolding helpers -/

theorem seqGaussian_in (w h : ℕ) (junk img : ℤ → ℕ) (x : ℤ)
    (hx : 0 ≤ x ∧ x < ((w * h : ℕ) : ℤ)) :
    Seq.applyGaussianFilter true w h junk img x =
      writeAll (gaussVal w img) (interiorIdxs w h 2) junk x := by
  unfold Seq.applyGaussianFilter
  rw [if_pos rfl]
  exact if_pos hx

theorem seqWiener_in (w h : ℕ) (junk img : ℤ → ℕ) (x : ℤ)
    (hx : 0 ≤ x ∧ x < ((w * h : ℕ) : ℤ)) :
    Seq.applyWienerFilter true w h junk img x =
      writeAll (wienerVal w img) (interiorIdxs w h 2) junk x := by
  unfold Seq.applyWienerFilter
  rw [if_pos rfl]
  exact if_pos hx

theorem parGaussian_in (w h : ℕ) (junk img : ℤ → ℕ) (x : ℤ)
    (hx : 0 ≤ x ∧ x < ((w * h : ℕ) : ℤ)) :
    Par.applyGaussianFilter true w h junk img x =
      writeAll img (borderIdxs w h 2)
        (writeAll (gaussVal w img) (interiorIdxs w h 2) junk) x := by
  unfold Par.applyGaussianFilter
  rw [if_pos rfl]
  exact if_pos hx

theorem parWiener_in (w h : ℕ) (junk img : ℤ → ℕ) (x : ℤ)
    (hx : 0 ≤ x ∧ x < ((w * h : ℕ) : ℤ)) :
    Par.applyWienerFilter true w h junk img x =
      writeAll img (borderIdxs w h 2)
        (writeAll (wienerVal w img) (interiorIdxs w h 2) junk) x := by
  unfold Par.applyWienerFilter
  rw [if_pos rfl]
  exact if_pos hx

theorem seqGaussian_out (w h : ℕ) (junk img : ℤ → ℕ) (x : ℤ)
    (hx : ¬(0 ≤ x ∧ x < ((w * h : ℕ) : ℤ))) :
    Seq.applyGaussianFilter true w h junk img x = img x := by
  unfold Seq.applyGaussianFilter
  rw [if_pos rfl]
  exact if_neg hx

theorem seqWiener_out (w h : ℕ) (junk img : ℤ → ℕ) (x : ℤ)
    (hx : ¬(0 ≤ x ∧ x < ((w * h : ℕ) : ℤ))) :
    Seq.applyWienerFilter true w h junk img x = img x := by
  unfold Seq.applyWienerFilter
  rw [if_pos rfl]
  exact if_neg hx

theorem parGaussian_out (w h : ℕ) (junk img : ℤ → ℕ) (x : ℤ)
    (hx : ¬(0 ≤ x ∧ x < ((w * h : ℕ) : ℤ))) :
    Par.applyGaussianFilter true w h junk img x = img x := by
  unfold Par.applyGaussianFilter
  rw [if_pos rfl]
  exact if_neg hx

theorem parWiener_out (w h : ℕ) (junk img : ℤ → ℕ) (x : ℤ)
    (hx : ¬(0 ≤ x ∧ x < ((w * h : ℕ) : ℤ))) :
    Par.applyWienerFilter true w h junk img x = img x := by
  unfold Par.applyWienerFilter
  rw [if_pos rfl]
  exact if_neg hx

/-! ## C10: allocation failure leaves the image untouched -/

/-- C10: if the scratch-buffer `malloc` fails (`alloc = false`), each of the
four filter functions returns immediately and the caller's image buffer is
completely unchanged — the early `return` precedes every access to
`image_data`. -/
theorem claim10_alloc_failure_identity (w h : ℕ) (junk img : ℤ → ℕ) (x : ℤ) :
    Seq.applyGaussianFilter false w h junk img x = img x ∧
    Seq.applyWienerFilter false w h junk img x = img x ∧
    Par.applyGaussianFilter false w h junk img x = img x ∧
    Par.applyWienerFilter false w h junk img x = img x :=
  ⟨rfl, rfl, rfl, rfl⟩

/-! ## C1: sequential vs parallel mode output -/

/-- C1 (code bug evidence): on a 5×5 all-zero image whose sequential-mode
scratch buffer happens to hold the byte 1 everywhere, the sequential
`applyGaussianFilter` produces 1 at border pixel (0,0) — the uninitialized
`temp` byte copied back by `memcpy` — while the parallel version produces
the original 0 there.  The two modes' outputs are not byte-identical, and
the sequential output is not even a function of the input alone. -/
theorem claim1_modes_differ :
    Seq.applyGaussianFilter true 5 5 (fun _ => 1) (fun _ => 0) 0 = 1 ∧
    Par.applyGaussianFilter true 5 5 (fun _ => 1) (fun _ => 0) 0 = 0 := by
  constructor
  · rw [seqGaussian_in 5 5 _ _ 0 (by norm_num), writeAll_eq,
      if_neg (by decide)]
  · rw [parGaussian_in 5 5 _ _ 0 (by norm_num), writeAll_eq,
      if_pos (by decide)]

/-! ## C2: border pixels after the full pipeline -/

/-- C2 (code bug evidence): on a 7×7 all-128 image, the parallel-mode
pipeline leaves border pixel (0,0) at 128 as the spec requires, but the
sequential-mode pipeline leaves it at whatever byte the Wiener stage's
uninitialized scratch buffer held there (here 9): the border of the
sequential pipeline output is not the input border. -/
theorem claim2_border_divergence :
    Par.pipeline 7 7 (fun _ => 250) (fun _ => 9) (fun _ => 128) 0 = 128 ∧
    Seq.pipeline 7 7 (fun _ => 250) (fun _ => 9) (fun _ => 128) 0 = 9 := by
  constructor
  · unfold Par.pipeline
    rw [parWiener_in 7 7 _ _ 0 (by norm_num), writeAll_eq,
      if_pos (by decide),
      parGaussian_in 7 7 _ _ 0 (by norm_num), writeAll_eq,
      if_pos (by decide)]
  · unfold Seq.pipeline
    rw [seqWiener_in 7 7 _ _ 0 (by norm_num), writeAll_eq,
      if_neg (by decide)]

/-! ## C3: degenerate image sizes -/

/-- C3 (code bug evidence).  First conjunct: for a width-5, height-1 image
(degenerate: height ≤ 2×offset), the parallel border-copy loops access the
linear indices -5 (`(height-i-1)*width + j` with `i = 1`) and 5
(`i*width + j` with `i = 1`), both outside the `width*height = 5`-byte
buffer — an out-of-bounds read of `image_data` (and write of `temp`),
contradicting the claim.  Second conjunct: on a degenerate 5×3 all-zero
image the sequential Gaussian stage returns the uninitialized scratch
contents (here 1) instead of the input pixel 0. -/
theorem claim3_degenerate_divergence :
    ((-5 : ℤ) ∈ borderIdxs 5 1 2 ∧ (5 : ℤ) ∈ borderIdxs 5 1 2 ∧
      ¬((5 : ℤ) < ((5 * 1 : ℕ) : ℤ))) ∧
    Seq.applyGaussianFilter true 5 3 (fun _ => 1) (fun _ => 0) 0 = 1 := by
  refine ⟨⟨by decide, by decide, by decide⟩, ?_⟩
  rw [seqGaussian_in 5 3 _ _ 0 (by norm_num), writeAll_eq,
    if_neg (by decide)]

/-! ## Index geometry

Row/column decomposition of linear indices, coverage of the buffer by the
parallel code's interior sweep plus border-copy loops, and disjointness of
the interior region from the border-copy index set. -/

theorem rowcol_eq {w : ℕ} (hw : 0 < w) {a b c d : ℤ}
    (hb0 : 0 ≤ b) (hbw : b < w) (hd0 : 0 ≤ d) (hdw : d < w)
    (h : a * w + b = c * w + d) : a = c ∧ b = d := by
  have hwz : (w : ℤ) ≠ 0 := by exact_mod_cast hw.ne'
  have hb : (a * (w : ℤ) + b) % w = b := by
    rw [show a * (w : ℤ) + b = b + w * a by ring, Int.add_mul_emod_self_left,
      Int.emod_eq_of_lt hb0 hbw]
  have hd : (c * (w : ℤ) + d) % w = d := by
    rw [show c * (w : ℤ) + d = d + w * c by ring, Int.add_mul_emod_self_left,
      Int.emod_eq_of_lt hd0 hdw]
  have hbd : b = d := by rw [← hb, ← hd, h]
  refine ⟨?_, hbd⟩
  have h2 : a * (w : ℤ) = c * w := by
    rw [hbd] at h
    linarith
  exact mul_right_cancel₀ hwz h2

theorem idx_div_mod {w : ℕ} (hw : 0 < w) (i j : ℤ) (hj0 : 0 ≤ j)
    (hjw : j < w) :
    (i * w + j) / (w : ℤ) = i ∧ (i * w + j) % (w : ℤ) = j := by
  have hwz : (w : ℤ) ≠ 0 := by exact_mod_cast hw.ne'
  constructor
  · rw [show i * (w : ℤ) + j = j + w * i by ring,
      Int.add_mul_ediv_left j i hwz, Int.ediv_eq_zero_of_lt hj0 hjw, zero_add]
  · rw [show i * (w : ℤ) + j = j + w * i by ring, Int.add_mul_emod_self_left,
      Int.emod_eq_of_lt hj0 hjw]

/-- Every in-range linear index is touched either by the border-copy loops
or by the interior sweep of the parallel code (for any width ≥ 1 and any
height, including the degenerate ones). -/
theorem border_or_interior (w h : ℕ) (hw : 0 < w) (x : ℤ)
    (hx0 : 0 ≤ x) (hxlt : x < ((w * h : ℕ) : ℤ)) :
    x ∈ borderIdxs w h 2 ∨ x ∈ interiorIdxs w h 2 := by
  have hxn : x = (x.toNat : ℤ) := (Int.toNat_of_nonneg hx0).symm
  have hn : x.toNat < w * h := by
    rw [hxn] at hxlt
    exact_mod_cast hxlt
  obtain ⟨r, c, hrc, hr, hc⟩ :
      ∃ r c, x.toNat = r * w + c ∧ r < h ∧ c < w :=
    ⟨x.toNat / w, x.toNat % w,
      by rw [Nat.mul_comm]; exact (Nat.div_add_mod _ w).symm,
      Nat.div_lt_of_lt_mul hn, Nat.mod_lt _ hw⟩
  have hxeq : x = (r : ℤ) * w + c := by
    rw [hxn]
    exact_mod_cast hrc
  simp only [borderIdxs, borderTopBot, borderLR, interiorIdxs,
    List.mem_append, List.mem_flatMap, List.mem_range,
    List.mem_cons, List.not_mem_nil, or_false]
  by_cases h1 : r < 2
  · exact Or.inl (Or.inl ⟨r, h1, c, hc, Or.inl (by rw [hxeq])⟩)
  by_cases h2 : h ≤ r + 2
  · refine Or.inl (Or.inl ⟨h - 1 - r, by omega, c, hc, Or.inr ?_⟩)
    rw [show ((h - 1 - r : ℕ) : ℤ) = (h : ℤ) - 1 - r by omega, hxeq]
    ring
  by_cases h3 : c < 2
  · refine Or.inl (Or.inr ⟨r - 2, by omega, c, h3, Or.inl ?_⟩)
    rw [show ((r - 2 : ℕ) : ℤ) = (r : ℤ) - 2 by omega, hxeq]
    push_cast
    ring
  by_cases h4 : w ≤ c + 2
  · refine Or.inl (Or.inr ⟨r - 2, by omega, w - 1 - c, by omega, Or.inr ?_⟩)
    rw [show ((r - 2 : ℕ) : ℤ) = (r : ℤ) - 2 by omega,
      show ((w - 1 - c : ℕ) : ℤ) = (w : ℤ) - 1 - c by omega, hxeq]
    push_cast
    ring
  · refine Or.inr ⟨r - 2, by omega, c - 2, by omega, ?_⟩
    rw [show ((r - 2 : ℕ) : ℤ) = (r : ℤ) - 2 by omega,
      show ((c - 2 : ℕ) : ℤ) = (c : ℤ) - 2 by omega, hxeq]
    push_cast
    ring

/-- A true interior pixel's linear index is never touched by the
border-copy loops, so the border copy does not overwrite computed interior
values. -/
theorem interior_not_border (w h i j : ℕ) (hi2 : 2 ≤ i) (hih : i + 2 < h)
    (hj2 : 2 ≤ j) (hjw : j + 2 < w) :
    ((i : ℤ) * w + j) ∉ borderIdxs w h 2 := by
  have hw : 0 < w := by omega
  have hj0 : (0 : ℤ) ≤ j := by positivity
  have hjw' : (j : ℤ) < w := by exact_mod_cast (by omega : j < w)
  intro hmem
  simp only [borderIdxs, borderTopBot, borderLR, List.mem_append,
    List.mem_flatMap, List.mem_range, List.mem_cons, List.not_mem_nil,
    or_false] at hmem
  rcases hmem with ⟨a, ha, b, hb, hab | hab⟩ | ⟨a, ha, b, hb, hab | hab⟩
  · have hh := rowcol_eq hw hj0 hjw' (by positivity)
      (by exact_mod_cast hb) hab
    have : i = a := by exact_mod_cast hh.1
    omega
  · have hh := rowcol_eq hw hj0 hjw' (by positivity)
      (by exact_mod_cast hb) hab
    have : (i : ℤ) = (h : ℤ) - a - 1 := hh.1
    omega
  · have hh := rowcol_eq hw hj0 hjw' (by positivity)
      (by exact_mod_cast (by omega : b < w)) hab
    have : j = b := by exact_mod_cast hh.2
    omega
  · have hh := rowcol_eq hw hj0 hjw' (by omega) (by omega) hab
    have : (j : ℤ) = (w : ℤ) - b - 1 := hh.2
    omega

/-! ## Value-level lemmas for the two filters -/

theorem clampByte_le (v : ℝ) : clampByte v ≤ 255 := by
  unfold clampByte
  split_ifs with h1 h2
  · omega
  · exact le_refl 255
  · have h0 : (0 : ℝ) ≤ v := not_lt.mp h1
    have hv : v ≤ 255 := not_lt.mp h2
    have : ((⌊v⌋₊ : ℝ)) ≤ 255 := le_trans (Nat.floor_le h0) hv
    exact_mod_cast this

/-- The local-mean stage genuinely preserves a constant field: its
arithmetic is integer (`25V / 25 = V` with truncating division), so no
rounding can disturb it. -/
theorem wienerVal_const (w : ℕ) (V : ℕ) (img : ℤ → ℕ)
    (himg : ∀ y, img y = V) (x : ℤ) : wienerVal w img x = V := by
  have h1 : (∑ k ∈ Finset.range 5, ∑ l ∈ Finset.range 5,
      img ((x / (w : ℤ) + ((k : ℤ) - 2)) * w + (x % (w : ℤ) + ((l : ℤ) - 2))))
      = 25 * V := by
    rw [Finset.sum_congr rfl fun k _ => Finset.sum_congr rfl fun l _ =>
      himg _]
    simp only [Finset.sum_const, Finset.card_range, smul_eq_mul]
    omega
  unfold wienerVal
  rw [h1, Nat.mul_div_cancel_left V (by norm_num)]

theorem wienerVal_le (w : ℕ) (img : ℤ → ℕ) (himg : ∀ y, img y ≤ 255)
    (x : ℤ) : wienerVal w img x ≤ 255 := by
  unfold wienerVal
  have h1 : (∑ k ∈ Finset.range 5, ∑ l ∈ Finset.range 5,
      img ((x / (w : ℤ) + ((k : ℤ) - 2)) * w + (x % (w : ℤ) + ((l : ℤ) - 2))))
      ≤ 6375 := by
    calc (∑ k ∈ Finset.range 5, ∑ l ∈ Finset.range 5,
        img ((x / (w : ℤ) + ((k : ℤ) - 2)) * w + (x % (w : ℤ) + ((l : ℤ) - 2))))
        ≤ ∑ _k ∈ Finset.range 5, ∑ _l ∈ Finset.range 5, 255 :=
          Finset.sum_le_sum fun k _ => Finset.sum_le_sum fun l _ => himg _
      _ = 6375 := by simp [Finset.sum_const, Finset.card_range]
  calc _ ≤ 6375 / 25 := Nat.div_le_div_right h1
    _ = 255 := by norm_num

/-! ## C4: range invariant -/

/-- C4: if every input sample (and every byte of the uninitialized scratch
buffer — it is an `unsigned char` buffer, so its garbage contents are still
bytes) is ≤ 255, then every output sample of the sequential Gaussian filter
and of the sequential local-mean filter is ≤ 255: the Gaussian value is
explicitly clamped to [0,255] before the `unsigned char` cast, and the mean
of 25 bytes is at most 255.  (Samples are naturals, so ≥ 0 throughout.) -/
theorem claim4_range_invariant (w h : ℕ) (junk img : ℤ → ℕ)
    (himg : ∀ y, img y ≤ 255) (hjunk : ∀ y, junk y ≤ 255) (x : ℤ) :
    Seq.applyGaussianFilter true w h junk img x ≤ 255 ∧
    Seq.applyWienerFilter true w h junk img x ≤ 255 := by
  constructor
  · by_cases hx : 0 ≤ x ∧ x < ((w * h : ℕ) : ℤ)
    · rw [seqGaussian_in w h junk img x hx, writeAll_eq]
      by_cases hm : x ∈ interiorIdxs w h 2
      · rw [if_pos hm]
        exact clampByte_le _
      · rw [if_neg hm]
        exact hjunk x
    · rw [seqGaussian_out w h junk img x hx]
      exact himg x
  · by_cases hx : 0 ≤ x ∧ x < ((w * h : ℕ) : ℤ)
    · rw [seqWiener_in w h junk img x hx, writeAll_eq]
      by_cases hm : x ∈ interiorIdxs w h 2
      · rw [if_pos hm]
        exact wienerVal_le w img himg x
      · rw [if_neg hm]
        exact hjunk x
    · rw [seqWiener_out w h junk img x hx]
      exact himg x

/-- Witness for C4 on a 5×5 image holding 200 everywhere, scratch bytes 200,
at the interior index 12 = 2*5+2. -/
theorem claim4_range_invariant_witness :
    Seq.applyGaussianFilter true 5 5 (fun _ => 200) (fun _ => 200) 12 ≤ 255 ∧
    Seq.applyWienerFilter true 5 5 (fun _ => 200) (fun _ => 200) 12 ≤ 255 :=
  claim4_range_invariant 5 5 (fun _ => 200) (fun _ => 200)
    (fun _ => by norm_num) (fun _ => by norm_num) 12

/-! ## C6: constant field -/

/-- C6 (code bug evidence): the Gaussian stage stores each interior pixel
through the truncating cast
`(unsigned char)(pixel_value < 0 ? 0 : (pixel_value > 255 ? 255 : pixel_value))`,
and for a uniform field of value V the `double` accumulation of the 25
products `V * kernel[k+offset][l+offset]` does not yield V exactly: for 16
of the 256 byte values (V = 55, 101, 110, 125, 127, 135, 157, 191, 195,
202, 211, 220, 233, 241, 250, 254, replaying the code's exact IEEE-double
loop order) the accumulated value lands a few ulps *below* V — for V = 55
it is 54.99999999999999.  This theorem shows what the code's clamp-and-cast
(embedded as `clampByte`) then does: every accumulated value in [V−1, V)
is stored as V − 1, not V.  So a uniform-55 input leaves the Gaussian
stage with 54 at every interior pixel and the constant field is not
preserved, though it would be in exact arithmetic (the kernel sums to 1,
see `kernel_sum_eq_one`) and though the integer local-mean stage and the
border copies do preserve it (see `wienerVal_const`). -/
theorem claim6_truncation_bug (V : ℕ) (v : ℝ) (hV1 : 1 ≤ V) (hV : V ≤ 255)
    (hlo : (V : ℝ) - 1 ≤ v) (hhi : v < V) : clampByte v = V - 1 := by
  have hV1R : (1 : ℝ) ≤ (V : ℝ) := by exact_mod_cast hV1
  have h0 : (0 : ℝ) ≤ v := by linarith
  have h255 : ¬((255 : ℝ) < v) := by
    have : (V : ℝ) ≤ 255 := by exact_mod_cast hV
    linarith
  have hcast : ((V - 1 : ℕ) : ℝ) = (V : ℝ) - 1 := by
    rw [Nat.cast_sub hV1, Nat.cast_one]
  unfold clampByte
  rw [if_neg (not_lt.mpr h0), if_neg h255, Nat.floor_eq_iff h0]
  constructor
  · rw [hcast]
    exact hlo
  · rw [hcast]
    linarith

/-- Witness for C6's divergence at the first failing byte value: the
IEEE-double accumulation for a uniform 55 field evaluates to
54.99999999999999 (the displayed decimal, 5499999999999999/10^14), and the
code's cast stores it as 54 = 55 − 1. -/
theorem claim6_truncation_bug_witness :
    clampByte ((5499999999999999 : ℝ) / 100000000000000) = 54 :=
  claim6_truncation_bug 55 ((5499999999999999 : ℝ) / 100000000000000)
    (by norm_num) (by norm_num) (by norm_num) (by norm_num)

/-! ## C7: local-mean interior formula -/

/-- C7: at every interior pixel (offset ≤ i < height-offset,
offset ≤ j < width-offset), both the sequential and the parallel local-mean
filter produce exactly the truncating integer division by 25 of the sum of
the 25 samples of the 5×5 window of the *input* buffer `img` (the embedding
reads only `img`, never the partially written scratch buffer, mirroring the
two-buffer structure of the C code). -/
theorem claim7_wiener_interior (w h i j : ℕ) (junk img : ℤ → ℕ)
    (hi2 : 2 ≤ i) (hih : i + 2 < h) (hj2 : 2 ≤ j) (hjw : j + 2 < w) :
    Seq.applyWienerFilter true w h junk img ((i : ℤ) * w + j) =
      (∑ k ∈ Finset.range 5, ∑ l ∈ Finset.range 5,
        img (((i : ℤ) + ((k : ℤ) - 2)) * w + ((j : ℤ) + ((l : ℤ) - 2)))) / 25 ∧
    Par.applyWienerFilter true w h junk img ((i : ℤ) * w + j) =
      (∑ k ∈ Finset.range 5, ∑ l ∈ Finset.range 5,
        img (((i : ℤ) + ((k : ℤ) - 2)) * w + ((j : ℤ) + ((l : ℤ) - 2)))) / 25 := by
  have hw : 0 < w := by omega
  have hj0 : (0 : ℤ) ≤ j := by positivity
  have hjw' : (j : ℤ) < w := by exact_mod_cast (by omega : j < w)
  have hdm := idx_div_mod hw (i : ℤ) (j : ℤ) hj0 hjw'
  have hin : ((i : ℤ) * w + j) ∈ interiorIdxs w h 2 := by
    simp only [interiorIdxs, List.mem_flatMap, List.mem_range, List.mem_cons,
      List.not_mem_nil, or_false]
    refine ⟨i - 2, by omega, j - 2, by omega, ?_⟩
    rw [show ((i - 2 : ℕ) : ℤ) = (i : ℤ) - 2 by omega,
      show ((j - 2 : ℕ) : ℤ) = (j : ℤ) - 2 by omega]
    push_cast
    ring
  have hrange : 0 ≤ (i : ℤ) * w + j ∧ (i : ℤ) * w + j < ((w * h : ℕ) : ℤ) := by
    refine ⟨by positivity, ?_⟩
    have h1 : i * w + j < w * h := by
      calc i * w + j < i * w + w := by omega
        _ = (i + 1) * w := by ring
        _ ≤ h * w := Nat.mul_le_mul_right w (by omega)
        _ = w * h := Nat.mul_comm h w
    exact_mod_cast h1
  have hval : wienerVal w img ((i : ℤ) * w + j)
      = (∑ k ∈ Finset.range 5, ∑ l ∈ Finset.range 5,
          img (((i : ℤ) + ((k : ℤ) - 2)) * w + ((j : ℤ) + ((l : ℤ) - 2)))) / 25 := by
    unfold wienerVal
    rw [hdm.1, hdm.2]
  constructor
  · rw [seqWiener_in w h junk img _ hrange, writeAll_eq,
      if_pos hin, hval]
  · rw [parWiener_in w h junk img _ hrange, writeAll_eq,
      if_neg (interior_not_border w h i j hi2 hih hj2 hjw), writeAll_eq,
      if_pos hin, hval]

/-- Witness for C7 on a 5×5 image holding 7 everywhere at the unique
interior pixel (2,2), linear index 12. -/
theorem claim7_wiener_interior_witness :
    Seq.applyWienerFilter true 5 5 (fun _ => 3) (fun _ => 7)
        ((2 : ℕ) * (5 : ℕ) + (2 : ℕ) : ℤ) =
      (∑ k ∈ Finset.range 5, ∑ l ∈ Finset.range 5,
        (fun _ => 7 : ℤ → ℕ)
          ((((2 : ℕ) : ℤ) + ((k : ℤ) - 2)) * (5 : ℕ) +
            (((2 : ℕ) : ℤ) + ((l : ℤ) - 2)))) / 25 ∧
    Par.applyWienerFilter true 5 5 (fun _ => 3) (fun _ => 7)
        ((2 : ℕ) * (5 : ℕ) + (2 : ℕ) : ℤ) =
      (∑ k ∈ Finset.range 5, ∑ l ∈ Finset.range 5,
        (fun _ => 7 : ℤ → ℕ)
          ((((2 : ℕ) : ℤ) + ((k : ℤ) - 2)) * (5 : ℕ) +
            (((2 : ℕ) : ℤ) + ((l : ℤ) - 2)))) / 25 :=
  claim7_wiener_interior 5 5 2 2 (fun _ => 3) (fun _ => 7)
    (by norm_num) (by norm_num) (by norm_num) (by norm_num)

/-! ## Dataset driver

The per-entry loop of `processDataset` is identical in both C files for the
aspects the claims speak about: for each manifest entry in order it
(a) skips the entry with `continue` when `file_name` is missing or not a
string, (b) skips with `continue` when `stbi_load` returns NULL, and
(c) otherwise filters the image, writes it, and only then executes
`processed_images++; printProgressBar(processed_images, total_images);`.
The external collaborators (JSON parsing, image codec, `mkdir`) are
abstracted into the entry's already-determined outcome; the image content
is opaque here (the filter stage is verified above). -/

inductive ManifestEntry
  | noName : ManifestEntry
  | loadFail : ManifestEntry
  | ok : ℕ → ManifestEntry
deriving DecidableEq

/-- An entry that reaches the filtering/writing/counting code. -/
def ManifestEntry.isOk : ManifestEntry → Bool
  | ManifestEntry.ok _ => true
  | _ => false

/-- Observable state of one batch run: the progress counter
`processed_images`, the images handed to `stbi_write_png` in order, and the
counter values passed to `printProgressBar` in order. -/
structure RunState where
  processed : ℕ
  written : List ℕ
  reports : List ℕ
deriving DecidableEq

/-- One iteration of the `cJSON_ArrayForEach` loop body. -/
def stepEntry (st : RunState) (e : ManifestEntry) : RunState :=
  match e with
  | ManifestEntry.noName => st
  | ManifestEntry.loadFail => st
  | ManifestEntry.ok img =>
      ⟨st.processed + 1, st.written ++ [img], st.reports ++ [st.processed + 1]⟩

/-- The whole batch loop of `processDataset`, starting from
`processed_images = 0` with nothing written or reported. -/
def processDataset (entries : List ManifestEntry) : RunState :=
  entries.foldl stepEntry ⟨0, [], []⟩

theorem processDataset_fold (entries : List ManifestEntry) (st : RunState) :
    (entries.foldl stepEntry st).processed
        = st.processed + entries.countP (fun e => e.isOk) ∧
    (entries.foldl stepEntry st).written.length
        = st.written.length + entries.countP (fun e => e.isOk) ∧
    (entries.foldl stepEntry st).reports
        = st.reports ++ List.range' (st.processed + 1)
            (entries.countP (fun e => e.isOk)) := by
  induction entries generalizing st with
  | nil => simp
  | cons e t ih =>
    cases e with
    | noName => exact ih st
    | loadFail => exact ih st
    | ok img =>
      obtain ⟨ih1, ih2, ih3⟩ :=
        ih ⟨st.processed + 1, st.written ++ [img], st.reports ++ [st.processed + 1]⟩
      dsimp only at ih1 ih2 ih3
      simp only [List.foldl_cons, List.countP_cons, ManifestEntry.isOk,
        if_true, stepEntry] at ih1 ih2 ih3 ⊢
      refine ⟨by rw [ih1]; omega, ?_, ?_⟩
      · rw [ih2]
        simp only [List.length_append, List.length_cons, List.length_nil]
        omega
      · rw [ih3, List.range'_succ]
        simp [List.append_assoc, List.singleton_append]

/-! ## C8: batch resilience -/

/-- C8: for a manifest of N entries in which exactly one entry's image
fails to load and the others process normally, the run completes (the loop
is a total function of the manifest), the counter ends at N−1, and N−1
images are written — the load failure skips only its own entry and never
aborts the batch. -/
theorem claim8_batch_resilience (pre post : List ManifestEntry)
    (hpre : ∀ e ∈ pre, e.isOk = true) (hpost : ∀ e ∈ post, e.isOk = true) :
    (processDataset (pre ++ [ManifestEntry.loadFail] ++ post)).processed
        = pre.length + post.length ∧
    (processDataset (pre ++ [ManifestEntry.loadFail] ++ post)).written.length
        = pre.length + post.length := by
  obtain ⟨h1, h2, _⟩ :=
    processDataset_fold (pre ++ [ManifestEntry.loadFail] ++ post) ⟨0, [], []⟩
  dsimp only at h1 h2
  have hcount : (pre ++ [ManifestEntry.loadFail] ++ post).countP
      (fun e => e.isOk) = pre.length + post.length := by
    rw [List.countP_append, List.countP_append,
      List.countP_eq_length.mpr hpre, List.countP_eq_length.mpr hpost]
    simp [List.countP_cons, ManifestEntry.isOk]
  unfold processDataset
  constructor
  · rw [h1, hcount]
    omega
  · rw [h2, hcount]
    simp

/-- Witness for C8: a 3-entry manifest whose middle image fails to load
processes the other 2. -/
theorem claim8_batch_resilience_witness :
    (processDataset ([ManifestEntry.ok 10] ++ [ManifestEntry.loadFail] ++
        [ManifestEntry.ok 20])).processed
      = [ManifestEntry.ok 10].length + [ManifestEntry.ok 20].length ∧
    (processDataset ([ManifestEntry.ok 10] ++ [ManifestEntry.loadFail] ++
        [ManifestEntry.ok 20])).written.length
      = [ManifestEntry.ok 10].length + [ManifestEntry.ok 20].length :=
  claim8_batch_resilience [ManifestEntry.ok 10] [ManifestEntry.ok 20]
    (by decide) (by decide)

/-! ## C9: progress counting -/

/-- C9 counterexample: a 1-entry manifest whose entry has no usable
`file_name` string is attempted, but `continue` runs before
`processed_images++` and `printProgressBar`, so the counter stays 0 and no
progress is reported — the claim requires one report for this attempted
entry (its count sequence would have length 1). -/
theorem claim9_counterexample :
    (processDataset [ManifestEntry.noName]).processed = 0 ∧
    (processDataset [ManifestEntry.noName]).reports = [] ∧
    ¬((processDataset [ManifestEntry.noName]).reports.length = 1) :=
  ⟨rfl, rfl, by decide⟩

/-- C9 as amended: the driver increments the counter and reports progress
only after successfully processed entries (loaded, filtered, written);
entries skipped for a missing/non-string filename or a load failure
produce no increment and no report.  The reported counts are exactly
1, 2, …, k in manifest order (k = number of successful entries), so the
reported count never decreases and never skips a value. -/
theorem claim9_progress_amended (entries : List ManifestEntry) :
    (processDataset entries).processed = entries.countP (fun e => e.isOk) ∧
    (processDataset entries).reports
        = List.range' 1 (entries.countP (fun e => e.isOk)) := by
  obtain ⟨h1, _, h3⟩ := processDataset_fold entries ⟨0, [], []⟩
  dsimp only at h1 h3
  unfold processDataset
  refine ⟨by rw [h1]; omega, by rw [h3]; simp⟩
